import Mathlib

/-!
Shallow embedding of the formation-energy diagram engine of
`pydefect/analysis/defect_energies.py`.

Python floats are modelled by `ℚ` (all arithmetic in the engine is exact
field arithmetic on the given inputs), Python dicts by insertion-ordered
association lists, raised exceptions by `Option`-failure.  Python's `min`
over an iterable with a key function keeps the first minimal element, which
is modelled by `foldlMin` below.
-/

namespace Pydefect

/-- One record of `defect_energies[name][charge][annotation]`:
the `DefectEnergy` class (energy, convergence, is_shallow). -/
structure DefectEnergy where
  energy : ℚ
  convergence : Bool
  is_shallow : Bool
deriving DecidableEq, Repr

/-- `annotation → DefectEnergy` inner dict, in insertion order. -/
abbrev AnnotationMap := List (Option String × DefectEnergy)

/-- `charge → annotation → DefectEnergy` dict, in insertion order. -/
abbrev ChargeMap := List (Int × AnnotationMap)

/-- `name → charge → annotation → DefectEnergy` dict (the
`defect_energies` attribute), in insertion order. -/
abbrev EnergiesMap := List (String × ChargeMap)

/-- Association-list lookup: Python `d[k]`, `none` modelling `KeyError`. -/
def alookup {α β : Type} [DecidableEq α] : List (α × β) → α → Option β
  | [], _ => none
  | (k, v) :: t, a => if k = a then some v else alookup t a

/-- `t.foldl` step of Python `min(..., key=key)`: the current best is
replaced only when the new element's key is strictly smaller, so the first
minimal element of the iterable is kept. -/
def foldlMin {α : Type} (key : α → ℚ) (a : α) (t : List α) : α :=
  t.foldl (fun best x => if key x < key best then x else best) a

/-- Python `min(l, key=key)`; `none` models the `ValueError` on an empty
iterable. -/
def pyMinBy {α : Type} (key : α → ℚ) : List α → Option α
  | [] => none
  | a :: t => some (foldlMin key a t)

/-- `min_e_at_ef(ec, ef)` (module-level function): evaluates every line at
the Fermi level `ef` and returns the (charge, energy) item with the lowest
energy. -/
def min_e_at_ef (ec : List (Int × ℚ)) (ef : ℚ) : Option (Int × ℚ) :=
  pyMinBy (fun p => p.2) (ec.map (fun p => (p.1, p.2 + (p.1 : ℚ) * ef)))

/-- `itertools.combinations(l, r=2)` in iteration order. -/
def pairsOf {α : Type} : List α → List (α × α)
  | [] => []
  | a :: t => t.map (fun b => (a, b)) ++ pairsOf t

/-- Crossing abscissa of two charge lines: `x = -(e1 - e2) / (c1 - c2)`. -/
def crossX (c1 : Int) (e1 : ℚ) (c2 : Int) (e2 : ℚ) : ℚ :=
  -(e1 - e2) / ((c1 : ℚ) - (c2 : ℚ))

/-- Crossing ordinate of two charge lines:
`y = (c1 * e2 - c2 * e1) / (c1 - c2)`. -/
def crossY (c1 : Int) (e1 : ℚ) (c2 : Int) (e2 : ℚ) : ℚ :=
  ((c1 : ℚ) * e2 - (c2 : ℚ) * e1) / ((c1 : ℚ) - (c2 : ℚ))

/-- `min([energy + c * x for c, energy in lowest_energies[name].items()])`:
the lower-envelope value at `x` over the surviving charge lines. -/
def comparedEnergy (le : List (Int × ℚ)) (x : ℚ) : Option ℚ :=
  pyMinBy (fun v => v) (le.map (fun p => p.2 + (p.1 : ℚ) * x))

/-- One iteration of the crossing loop in `plot_energy`: the candidate
crossing of a pair of charge lines, kept iff `y < compared_energy + 1e-5`. -/
def candidate (le : List (Int × ℚ)) (p : (Int × ℚ) × (Int × ℚ)) :
    Option ((ℚ × ℚ) × (Int × Int)) :=
  let x := crossX p.1.1 p.1.2 p.2.1 p.2.2
  let y := crossY p.1.1 p.1.2 p.2.1 p.2.2
  match comparedEnergy le x with
  | none => none
  | some m => if y < m + 1 / 100000 then some ((x, y), (p.1.1, p.2.1)) else none

/-- `cross_points_with_charges` accumulated over
`combinations(lowest_energies[name].items(), r=2)`. -/
def crossPointsWithCharges (le : List (Int × ℚ)) :
    List ((ℚ × ℚ) × (Int × Int)) :=
  (pairsOf le).filterMap (candidate le)

/-- Stable insertion into a list sorted by the crossing abscissa;
ties keep the earlier element first, as Python's stable `sorted` does. -/
def insertByX (a : (ℚ × ℚ) × (Int × Int)) :
    List ((ℚ × ℚ) × (Int × Int)) → List ((ℚ × ℚ) × (Int × Int))
  | [] => [a]
  | b :: t => if a.1.1 ≤ b.1.1 then a :: b :: t else b :: insertByX a t

/-- `sorted(cross_points_with_charges, key=lambda z: z[0][0])`. -/
def sortByX : List ((ℚ × ℚ) × (Int × Int)) → List ((ℚ × ℚ) × (Int × Int))
  | [] => []
  | a :: t => insertByX a (sortByX t)

/-- The `TransitionLevel` result class: cross points and their charge
pairs, sorted along the x-axis. -/
structure TransitionLevel where
  cross_points : List (ℚ × ℚ)
  charges : List (Int × Int)
deriving DecidableEq, Repr

/-- Construction of `transition_levels[name]` from the surviving
lowest-energy charge lines of one configuration. -/
def transitionLevel (le : List (Int × ℚ)) : TransitionLevel :=
  let cpwc := sortByX (crossPointsWithCharges le)
  ⟨cpwc.map Prod.fst, cpwc.map Prod.snd⟩

/-- The worked lower-envelope scenario: charges +1, 0, −1 with energies
0.5, 1.5, 4.0. -/
def le3 : List (Int × ℚ) := [(1, 1/2), (0, 3/2), (-1, 4)]

/-- C3: on the configuration {+1: 0.5, 0: 1.5, −1: 4.0} over the domain
[0,3], the solver yields stable charge +1 with energy 0.5 at x = 0, stable
charge −1 with energy 1.0 at x = 3, and the x-sorted transition-level list
[(1.0, 1.5, (+1,0)), (2.5, 1.5, (0,−1))]; the candidate crossing of
{+1,−1} at x = 1.75, y = 2.25 is rejected because the envelope value there
is 1.5 < 2.25. -/
theorem c3_worked_envelope_scenario :
    min_e_at_ef le3 0 = some (1, 1/2) ∧
    min_e_at_ef le3 3 = some (-1, 1) ∧
    transitionLevel le3 =
      ⟨[(1, 3/2), (5/2, 3/2)], [(1, 0), (0, -1)]⟩ ∧
    crossX 1 (1/2) (-1) 4 = 7/4 ∧
    crossY 1 (1/2) (-1) 4 = 9/4 ∧
    comparedEnergy le3 (7/4) = some (3/2) ∧
    (3/2 : ℚ) < 9/4 ∧
    candidate le3 ((1, 1/2), (-1, 4)) = none := by
  refine ⟨?_, ?_, ?_, ?_, ?_, ?_, ?_, ?_⟩ <;>
    norm_num [min_e_at_ef, pyMinBy, foldlMin, le3, transitionLevel,
      crossPointsWithCharges, pairsOf, candidate, crossX, crossY,
      comparedEnergy, sortByX, insertByX, List.filterMap_cons,
      List.filterMap_nil]

/-- The fold behind Python's `min` keeps the first minimal element: the
input splits around the result, everything before it is strictly larger
and everything after it is at least as large. -/
lemma foldlMin_decomp {α : Type} (key : α → ℚ) (t : List α) (a : α) :
    ∃ l1 l2, a :: t = l1 ++ foldlMin key a t :: l2 ∧
      (∀ q ∈ l1, key (foldlMin key a t) < key q) ∧
      (∀ q ∈ l2, key (foldlMin key a t) ≤ key q) := by
  induction t generalizing a with
  | nil => exact ⟨[], [], rfl, by simp, by simp⟩
  | cons b t ih =>
    by_cases h : key b < key a
    · have hr : foldlMin key a (b :: t) = foldlMin key b t := by
        simp [foldlMin, List.foldl_cons, if_pos h]
      obtain ⟨l1, l2, hdec, h1, h2⟩ := ih b
      have hle : key (foldlMin key b t) ≤ key b := by
        have hb : b ∈ l1 ++ foldlMin key b t :: l2 := by
          rw [← hdec]; exact List.mem_cons_self _ _
        rcases List.mem_append.mp hb with hb | hb
        · exact le_of_lt (h1 _ hb)
        · rcases List.mem_cons.mp hb with hb | hb
          · exact le_of_eq (congrArg key hb).symm
          · exact h2 _ hb
      refine ⟨a :: l1, l2, ?_, ?_, ?_⟩
      · rw [hr, List.cons_append, ← hdec]
      · intro q hq
        rcases List.mem_cons.mp hq with hq | hq
        · rw [hq, hr]; exact lt_of_le_of_lt hle h
        · rw [hr]; exact h1 _ hq
      · intro q hq; rw [hr]; exact h2 _ hq
    · have hr : foldlMin key a (b :: t) = foldlMin key a t := by
        simp [foldlMin, List.foldl_cons, if_neg h]
      have hab : key a ≤ key b := le_of_not_lt h
      obtain ⟨l1, l2, hdec, h1, h2⟩ := ih a
      cases l1 with
      | nil =>
        rw [List.nil_append] at hdec
        injection hdec with ha ht
        refine ⟨[], b :: t, ?_, by simp, ?_⟩
        · rw [hr, ← ha]; rfl
        · intro q hq
          rcases List.mem_cons.mp hq with hq | hq
          · rw [hq, hr, ← ha]; exact hab
          · rw [hr]; exact h2 _ (ht ▸ hq)
      | cons x l1' =>
        rw [List.cons_append] at hdec
        injection hdec with hx ht
        have hfa : key (foldlMin key a t) < key a := by
          have := h1 x (List.mem_cons_self _ _); rwa [← hx] at this
        refine ⟨a :: b :: l1', l2, ?_, ?_, ?_⟩
        · rw [hr, List.cons_append, List.cons_append, ← ht]
        · intro q hq
          rcases List.mem_cons.mp hq with hq | hq
          · rw [hq, hr]; exact hfa
          · rcases List.mem_cons.mp hq with hq | hq
            · rw [hq, hr]; exact lt_of_lt_of_le hfa hab
            · rw [hr]; exact h1 _ (List.mem_cons_of_mem _ hq)
        · intro q hq; rw [hr]; exact h2 _ hq

/-- `pyMinBy` on a successful run splits the input around its result:
earlier elements are strictly larger, later ones at least as large. -/
lemma pyMinBy_decomp {α : Type} (key : α → ℚ) {l : List α} {r : α}
    (h : pyMinBy key l = some r) :
    ∃ l1 l2, l = l1 ++ r :: l2 ∧
      (∀ q ∈ l1, key r < key q) ∧ (∀ q ∈ l2, key r ≤ key q) := by
  cases l with
  | nil => exact absurd h (by simp [pyMinBy])
  | cons a t =>
    have hr : r = foldlMin key a t := by
      have := h; simp [pyMinBy] at this; exact this.symm
    obtain ⟨l1, l2, hdec, h1, h2⟩ := foldlMin_decomp key t a
    exact ⟨l1, l2, by rw [hr]; exact hdec, by rw [hr]; exact h1,
      by rw [hr]; exact h2⟩

/-- `pyMinBy` returns a member whose key is minimal over the list. -/
lemma pyMinBy_spec {α : Type} (key : α → ℚ) {l : List α} {r : α}
    (h : pyMinBy key l = some r) :
    r ∈ l ∧ ∀ q ∈ l, key r ≤ key q := by
  obtain ⟨l1, l2, hdec, h1, h2⟩ := pyMinBy_decomp key h
  constructor
  · rw [hdec]; exact List.mem_append.mpr (Or.inr (List.mem_cons_self _ _))
  · intro q hq
    rw [hdec] at hq
    rcases List.mem_append.mp hq with hq | hq
    · exact le_of_lt (h1 _ hq)
    · rcases List.mem_cons.mp hq with hq | hq
      · rw [hq]
      · exact h2 _ hq

/-- `min_e_at_ef` returns a charge of the mapping together with its line
value at `ef`, and that value is minimal over all lines. -/
lemma min_e_at_ef_spec (ec : List (Int × ℚ)) (x : ℚ) (c : ℤ) (v : ℚ)
    (h : min_e_at_ef ec x = some (c, v)) :
    (∃ e, (c, e) ∈ ec ∧ v = e + (c : ℚ) * x) ∧
      ∀ p ∈ ec, v ≤ p.2 + (p.1 : ℚ) * x := by
  have h' : pyMinBy (fun p : ℤ × ℚ => p.2)
      (ec.map (fun p => (p.1, p.2 + (p.1 : ℚ) * x))) = some (c, v) := h
  obtain ⟨hmem, hmin⟩ := pyMinBy_spec (fun p : ℤ × ℚ => p.2) h'
  constructor
  · obtain ⟨p, hp, hpe⟩ := List.mem_map.mp hmem
    have hc : p.1 = c := congrArg Prod.fst hpe
    have hv : p.2 + (p.1 : ℚ) * x = v := congrArg Prod.snd hpe
    refine ⟨p.2, ?_, ?_⟩
    · rw [← hc]; exact hp
    · rw [← hv, hc]
  · intro p hp
    exact hmin (p.1, p.2 + (p.1 : ℚ) * x) (List.mem_map.mpr ⟨p, hp, rfl⟩)

/-- C10: on a non-empty charge→energy mapping, `min_e_at_ef` returns the
pair whose line value `E_c + c·ef` is the minimum over all charges, and on
ties it is the entry occurring earliest in the mapping's insertion order:
the evaluated mapping splits around the returned pair, with every earlier
entry strictly larger and every later entry at least as large. -/
theorem c10_min_e_at_ef_first_minimum (ec : List (Int × ℚ)) (ef : ℚ)
    (c : ℤ) (v : ℚ) (h : min_e_at_ef ec ef = some (c, v)) :
    ∃ l1 l2, ec.map (fun p => (p.1, p.2 + (p.1 : ℚ) * ef)) =
        l1 ++ (c, v) :: l2 ∧
      (∀ p ∈ l1, v < p.2) ∧ (∀ p ∈ l2, v ≤ p.2) := by
  have h' : pyMinBy (fun p : ℤ × ℚ => p.2)
      (ec.map (fun p => (p.1, p.2 + (p.1 : ℚ) * ef))) = some (c, v) := h
  obtain ⟨l1, l2, hdec, h1, h2⟩ := pyMinBy_decomp (fun p : ℤ × ℚ => p.2) h'
  exact ⟨l1, l2, hdec, h1, h2⟩

/-- Witness for C10 at a mapping with a tie: charges 2 and 0 both have
line value 1 at `ef = 0`; the first entry, charge 2, is returned. -/
theorem c10_witness :
    min_e_at_ef [((2 : ℤ), (1 : ℚ)), (0, 1)] 0 = some (2, 1) ∧
    ∃ l1 l2,
      ([((2 : ℤ), (1 : ℚ)), (0, 1)]).map
          (fun p => (p.1, p.2 + (p.1 : ℚ) * 0)) = l1 ++ (2, 1) :: l2 ∧
      (∀ p ∈ l1, (1 : ℚ) < p.2) ∧ (∀ p ∈ l2, (1 : ℚ) ≤ p.2) :=
  ⟨by norm_num [min_e_at_ef, pyMinBy, foldlMin],
   c10_min_e_at_ef_first_minimum _ 0 2 1
     (by norm_num [min_e_at_ef, pyMinBy, foldlMin])⟩

/-- C6: the stable charge returned by `min_e_at_ef` is non-increasing in
the Fermi level: for any two Fermi levels `x1 < x2` on a mapping with at
least two entries, the charge stable at `x1` is ≥ the charge stable at
`x2`. -/
theorem c6_stable_charge_monotone (ec : List (Int × ℚ)) (x1 x2 : ℚ)
    (c1 c2 : ℤ) (v1 v2 : ℚ) (hlen : 2 ≤ ec.length) (hx : x1 < x2)
    (h1 : min_e_at_ef ec x1 = some (c1, v1))
    (h2 : min_e_at_ef ec x2 = some (c2, v2)) :
    c2 ≤ c1 := by
  obtain ⟨⟨e1, he1m, hv1⟩, hall1⟩ := min_e_at_ef_spec ec x1 c1 v1 h1
  obtain ⟨⟨e2, he2m, hv2⟩, hall2⟩ := min_e_at_ef_spec ec x2 c2 v2 h2
  have hA : v1 ≤ e2 + (c2 : ℚ) * x1 := hall1 (c2, e2) he2m
  have hB : v2 ≤ e1 + (c1 : ℚ) * x2 := hall2 (c1, e1) he1m
  have hq : (c2 : ℚ) ≤ (c1 : ℚ) := by
    by_contra hc
    push_neg at hc
    have hpos : 0 < ((c2 : ℚ) - c1) * (x2 - x1) :=
      mul_pos (by linarith) (by linarith)
    have hprod : ((c2 : ℚ) - c1) * (x2 - x1) =
        (c2 : ℚ) * x2 - (c2 : ℚ) * x1 - (c1 : ℚ) * x2 + (c1 : ℚ) * x1 := by
      ring
    linarith
  exact_mod_cast hq

/-- Witness for C6: on the two-line configuration {+1: 0.5, 0: 1.5} with
Fermi levels 0 < 2, the stable charges are +1 then 0, and 0 ≤ 1. -/
theorem c6_witness :
    2 ≤ ([((1 : ℤ), (1 : ℚ)/2), (0, 3/2)]).length ∧ (0 : ℚ) < 2 ∧
    min_e_at_ef [((1 : ℤ), (1 : ℚ)/2), (0, 3/2)] 0 = some (1, 1/2) ∧
    min_e_at_ef [((1 : ℤ), (1 : ℚ)/2), (0, 3/2)] 2 = some (0, 3/2) ∧
    (0 : ℤ) ≤ 1 :=
  ⟨by norm_num, by norm_num,
   by norm_num [min_e_at_ef, pyMinBy, foldlMin],
   by norm_num [min_e_at_ef, pyMinBy, foldlMin],
   c6_stable_charge_monotone [((1 : ℤ), (1 : ℚ)/2), (0, 3/2)] 0 2 1 0
     (1/2) (3/2) (by norm_num) (by norm_num)
     (by norm_num [min_e_at_ef, pyMinBy, foldlMin])
     (by norm_num [min_e_at_ef, pyMinBy, foldlMin])⟩

/-- Both components of a pair produced by `pairsOf` are members of the
underlying list. -/
lemma pairsOf_mem {α : Type} {l : List α} {p : α × α} (h : p ∈ pairsOf l) :
    p.1 ∈ l ∧ p.2 ∈ l := by
  induction l with
  | nil => simp [pairsOf] at h
  | cons a t ih =>
    simp only [pairsOf, List.mem_append, List.mem_map] at h
    rcases h with ⟨b, hb, hpb⟩ | h
    · rw [← hpb]
      exact ⟨List.mem_cons_self _ _, List.mem_cons_of_mem _ hb⟩
    · obtain ⟨h1, h2⟩ := ih h
      exact ⟨List.mem_cons_of_mem _ h1, List.mem_cons_of_mem _ h2⟩

/-- The envelope value computed by `comparedEnergy` is a lower bound for
every surviving charge line at `x`. -/
lemma comparedEnergy_le {le : List (Int × ℚ)} {x m : ℚ}
    (h : comparedEnergy le x = some m) :
    ∀ p ∈ le, m ≤ p.2 + (p.1 : ℚ) * x := by
  have h' : pyMinBy (fun v : ℚ => v)
      (le.map (fun p => p.2 + (p.1 : ℚ) * x)) = some m := h
  obtain ⟨_, hmin⟩ := pyMinBy_spec (fun v : ℚ => v) h'
  intro p hp
  exact hmin _ (List.mem_map.mpr ⟨p, hp, rfl⟩)

/-- On a non-empty charge-line list the envelope value exists. -/
lemma comparedEnergy_isSome {le : List (Int × ℚ)} (hne : le ≠ []) (x : ℚ) :
    ∃ m, comparedEnergy le x = some m := by
  cases le with
  | nil => exact absurd rfl hne
  | cons a t => exact ⟨_, rfl⟩

/-- C4 amended: for every unordered pair of distinct surviving charges the
crossing-candidate loop computes `x* = -(E1-E2)/(q1-q2)` and
`y* = (q1·E2-q2·E1)/(q1-q2)` and accepts the candidate iff
`y* < stable_energy(x*) + ε` (strict comparison, ε = 1e-5); consequently
no accepted crossing lies more than ε above any surviving charge line at
`x*`. -/
theorem c4_crossing_filter_amended (le : List (Int × ℚ)) (q1 q2 : ℤ)
    (E1 E2 : ℚ) (hmem : ((q1, E1), (q2, E2)) ∈ pairsOf le) (hq : q1 ≠ q2) :
    (∃ m, comparedEnergy le (crossX q1 E1 q2 E2) = some m ∧
      ((candidate le ((q1, E1), (q2, E2))).isSome ↔
        crossY q1 E1 q2 E2 < m + 1 / 100000)) ∧
    ∀ xy cs, candidate le ((q1, E1), (q2, E2)) = some (xy, cs) →
      xy = (crossX q1 E1 q2 E2, crossY q1 E1 q2 E2) ∧ cs = (q1, q2) ∧
      ∀ p ∈ le, ¬(p.2 + (p.1 : ℚ) * xy.1 < xy.2 - 1 / 100000) := by
  have hne : le ≠ [] := by
    intro h0
    rw [h0] at hmem
    simp [pairsOf] at hmem
  obtain ⟨m, hm⟩ := comparedEnergy_isSome hne (crossX q1 E1 q2 E2)
  have hc : candidate le ((q1, E1), (q2, E2)) =
      if crossY q1 E1 q2 E2 < m + 1 / 100000 then
        some ((crossX q1 E1 q2 E2, crossY q1 E1 q2 E2), (q1, q2))
      else none := by
    simp only [candidate, hm]
  refine ⟨⟨m, hm, ?_⟩, ?_⟩
  · rw [hc]
    by_cases hy : crossY q1 E1 q2 E2 < m + 1 / 100000
    · simp [hy]
    · simp [hy]
  · intro xy cs hsome
    rw [hc] at hsome
    by_cases hy : crossY q1 E1 q2 E2 < m + 1 / 100000
    · rw [if_pos hy] at hsome
      have hxy := (Option.some.inj hsome)
      have hxy1 : xy = (crossX q1 E1 q2 E2, crossY q1 E1 q2 E2) :=
        (congrArg Prod.fst hxy).symm
      have hxy2 : cs = (q1, q2) := (congrArg Prod.snd hxy).symm
      refine ⟨hxy1, hxy2, ?_⟩
      intro p hp hlt
      have hlow := comparedEnergy_le hm p hp
      rw [hxy1] at hlt
      simp only at hlt
      linarith
    · rw [if_neg hy] at hsome
      exact absurd hsome (by simp)

/-- Counterexample to C4 as stated: on the configuration
{+1: 0, −1: 0, 0: −1e-5} the crossing of +1 and −1 sits exactly ε above
the envelope (`y* = 0 ≤ stable_energy(0) + ε = 0`), so the claim's `≤`
acceptance test would accept it, yet the code's strict `<` test rejects
it. -/
def le0 : List (Int × ℚ) := [(1, 0), (-1, 0), (0, -(1/100000))]

/-- C4 counterexample theorem: the pair of charges +1 and −1 of `le0` is a
pair of distinct surviving charges whose candidate crossing satisfies
`y* ≤ stable_energy(x*) + ε` but is not accepted by the code. -/
theorem c4_counterexample :
    (((1 : ℤ), (0 : ℚ)), ((-1 : ℤ), (0 : ℚ))) ∈ pairsOf le0 ∧
    (1 : ℤ) ≠ -1 ∧
    comparedEnergy le0 (crossX 1 0 (-1) 0) = some (-(1/100000)) ∧
    crossY 1 0 (-1) 0 ≤ -(1/100000) + 1/100000 ∧
    candidate le0 ((1, 0), (-1, 0)) = none := by
  refine ⟨?_, ?_, ?_, ?_, ?_⟩ <;>
    norm_num [pairsOf, le0, comparedEnergy, pyMinBy, foldlMin,
      crossX, crossY, candidate]

/-- Witness for the amended C4 at the worked configuration `le3` and its
pair {+1, 0}. -/
theorem c4_witness :
    ((((1 : ℤ), (1 : ℚ)/2), ((0 : ℤ), (3 : ℚ)/2)) ∈ pairsOf le3) ∧
    ((1 : ℤ) ≠ 0) ∧
    ((∃ m, comparedEnergy le3 (crossX 1 (1/2) 0 (3/2)) = some m ∧
      ((candidate le3 ((1, 1/2), (0, 3/2))).isSome ↔
        crossY 1 (1/2) 0 (3/2) < m + 1 / 100000)) ∧
    ∀ xy cs, candidate le3 ((1, 1/2), (0, 3/2)) = some (xy, cs) →
      xy = (crossX 1 (1/2) 0 (3/2), crossY 1 (1/2) 0 (3/2)) ∧
      cs = (1, 0) ∧
      ∀ p ∈ le3, ¬(p.2 + (p.1 : ℚ) * xy.1 < xy.2 - 1 / 100000)) :=
  ⟨by norm_num [pairsOf, le3], by norm_num,
   c4_crossing_filter_amended le3 1 0 (1/2) (3/2)
     (by norm_num [pairsOf, le3]) (by norm_num)⟩

/-- `min(self.defect_energies[name][c].items(), key=lambda z: z[1].energy)`:
the (annotation, record) item with the lowest energy of one charge state. -/
def lowestItem (am : AnnotationMap) : Option (Option String × DefectEnergy) :=
  pyMinBy (fun p => p.2.energy) am

/-- The `annotations is None` loop of `DefectEnergies.u`: for each charge
in order, look the charge up (`KeyError` → failure) and take its
lowest-energy (annotation, energy) item. -/
def uAutoList (cm : ChargeMap) : List Int → Option (List (ℚ × Option String))
  | [] => some []
  | c :: rest => do
    let am ← alookup cm c
    let p ← lowestItem am
    let r ← uAutoList cm rest
    pure ((p.2.energy, p.1) :: r)

/-- The explicit-annotations loop of `DefectEnergies.u`, over
`zip(charges, annotations)`. -/
def uGivenList (cm : ChargeMap) :
    List (Int × Option String) → Option (List ℚ)
  | [] => some []
  | (c, a) :: rest => do
    let am ← alookup cm c
    let e ← alookup am a
    let r ← uGivenList cm rest
    pure (e.energy :: r)

/-- `DefectEnergies.u`.  The source's three charge-sequence guards are
`assert ValueError(...)`: each asserts a freshly constructed exception
object, which is always truthy, so the assertion can never fail and no
charge list is rejected before the computation.  Failures (`KeyError` on a
missing name/charge/annotation, `IndexError` when fewer than three
energies were collected) are modelled by `none`. -/
def u (de : EnergiesMap) (name : String) (charges : List Int)
    (annotations : Option (List (Option String))) :
    Option (ℚ × List (Option String)) := do
  let cm ← alookup de name
  let (energies, anns) ←
    match annotations with
    | none =>
        (uAutoList cm charges).map (fun l => (l.map Prod.fst, l.map Prod.snd))
    | some anns =>
        (uGivenList cm (charges.zip anns)).map (fun es => (es, anns))
  let e0 ← energies.get? 0
  let e1 ← energies.get? 1
  let e2 ← energies.get? 2
  pure (e0 + e2 - 2 * e1, anns)

/-- A dataset holding charges 0, 1 and 3 of one defect, used to exercise
`u` on the non-consecutive charge list [0, 1, 3]. -/
def uEx : EnergiesMap :=
  [("Va_O1", [(0, [(none, ⟨1, true, false⟩)]),
              (1, [(none, ⟨2, true, false⟩)]),
              (3, [(none, ⟨5, true, false⟩)])])]

/-- C1: requesting U for the invalid charge list [0, 1, 3] does NOT abort:
because all three precondition guards are `assert ValueError(...)` no-ops,
`u` silently performs the computation on the non-consecutive charges and
returns `E(0) + E(3) − 2·E(1) = 1 + 5 − 4 = 2`. -/
theorem c1_u_invalid_charges_not_rejected :
    u uEx "Va_O1" [0, 1, 3] none = some (2, [none, none, none]) := by
  norm_num [u, uEx, uAutoList, alookup, lowestItem, pyMinBy, foldlMin,
    Option.bind]

/-- Stable-ladder worked example: charges 0, 1, 2 with energies
2.0, 1.2, 2.0. -/
def uLadderCM : ChargeMap :=
  [(0, [(none, ⟨2, true, false⟩)]),
   (1, [(none, ⟨6/5, true, false⟩)]),
   (2, [(none, ⟨2, true, false⟩)])]

/-- The stable-ladder dataset. -/
def uLadder : EnergiesMap := [("d", uLadderCM)]

/-- Negative-U worked example: charges 0, 1, 2 with energies
2.0, 2.5, 2.0. -/
def uNegU : EnergiesMap :=
  [("d", [(0, [(none, ⟨2, true, false⟩)]),
          (1, [(none, ⟨5/2, true, false⟩)]),
          (2, [(none, ⟨2, true, false⟩)])])]

/-- C5: for every defect name and consecutive ascending charge triple
(q, q+1, q+2) present in the dataset, `u` returns
`U = E(q) + E(q+2) − 2·E(q+1)` with each `E` the minimum energy over the
charge's annotations, together with the annotation used for each charge;
in particular energies [2.0, 1.2, 2.0] give U = 1.6 and [2.0, 2.5, 2.0]
give U = −1.0. -/
theorem c5_u_value :
    (∀ (de : EnergiesMap) (name : String) (q : ℤ) (cm : ChargeMap)
        (am0 am1 am2 : AnnotationMap)
        (p0 p1 p2 : Option String × DefectEnergy),
      alookup de name = some cm →
      alookup cm q = some am0 →
      alookup cm (q + 1) = some am1 →
      alookup cm (q + 2) = some am2 →
      lowestItem am0 = some p0 →
      lowestItem am1 = some p1 →
      lowestItem am2 = some p2 →
      u de name [q, q + 1, q + 2] none =
        some (p0.2.energy + p2.2.energy - 2 * p1.2.energy,
          [p0.1, p1.1, p2.1]) ∧
      (∀ x ∈ am0, p0.2.energy ≤ x.2.energy) ∧
      (∀ x ∈ am1, p1.2.energy ≤ x.2.energy) ∧
      (∀ x ∈ am2, p2.2.energy ≤ x.2.energy)) ∧
    u uLadder "d" [0, 1, 2] none = some (8/5, [none, none, none]) ∧
    u uNegU "d" [0, 1, 2] none = some (-1, [none, none, none]) := by
  refine ⟨?_, ?_, ?_⟩
  · intro de name q cm am0 am1 am2 p0 p1 p2 hde h0 h1 h2 hl0 hl1 hl2
    refine ⟨?_, ?_, ?_, ?_⟩
    · simp [u, uAutoList, hde, h0, h1, h2, hl0, hl1, hl2, Option.bind]
    · intro x hx
      have h' : pyMinBy (fun p : Option String × DefectEnergy =>
          p.2.energy) am0 = some p0 := hl0
      exact (pyMinBy_spec _ h').2 x hx
    · intro x hx
      have h' : pyMinBy (fun p : Option String × DefectEnergy =>
          p.2.energy) am1 = some p1 := hl1
      exact (pyMinBy_spec _ h').2 x hx
    · intro x hx
      have h' : pyMinBy (fun p : Option String × DefectEnergy =>
          p.2.energy) am2 = some p2 := hl2
      exact (pyMinBy_spec _ h').2 x hx
  · norm_num [u, uLadder, uLadderCM, uAutoList, alookup, lowestItem,
      pyMinBy, foldlMin, Option.bind]
  · norm_num [u, uNegU, uAutoList, alookup, lowestItem, pyMinBy,
      foldlMin, Option.bind]

/-- Witness for C5's general clause at the stable-ladder dataset with
q = 0. -/
theorem c5_witness :
    alookup uLadder "d" = some uLadderCM ∧
    alookup uLadderCM 0 = some [(none, ⟨2, true, false⟩)] ∧
    alookup uLadderCM (0 + 1) = some [(none, ⟨6/5, true, false⟩)] ∧
    alookup uLadderCM (0 + 2) = some [(none, ⟨2, true, false⟩)] ∧
    lowestItem [(none, ⟨2, true, false⟩)] = some (none, ⟨2, true, false⟩) ∧
    lowestItem [(none, ⟨6/5, true, false⟩)] =
      some (none, ⟨6/5, true, false⟩) ∧
    (u uLadder "d" [0, 0 + 1, 0 + 2] none =
      some ((2 : ℚ) + 2 - 2 * (6/5), [none, none, none]) ∧
    (∀ x ∈ ([(none, ⟨2, true, false⟩)] : AnnotationMap),
      (2 : ℚ) ≤ x.2.energy) ∧
    (∀ x ∈ ([(none, ⟨6/5, true, false⟩)] : AnnotationMap),
      (6/5 : ℚ) ≤ x.2.energy) ∧
    (∀ x ∈ ([(none, ⟨2, true, false⟩)] : AnnotationMap),
      (2 : ℚ) ≤ x.2.energy)) :=
  ⟨rfl, rfl, rfl, rfl, rfl, rfl,
   c5_u_value.1 uLadder "d" 0 uLadderCM
     [(none, ⟨2, true, false⟩)] [(none, ⟨6/5, true, false⟩)]
     [(none, ⟨2, true, false⟩)]
     (none, ⟨2, true, false⟩) (none, ⟨6/5, true, false⟩)
     (none, ⟨2, true, false⟩) rfl rfl rfl rfl rfl rfl rfl⟩

/-- Python logging levels used by the module (`logger.info` during
filtering; `logger.warning` elsewhere). -/
inductive LogLevel
  | info
  | warning
deriving DecidableEq, Repr

/-- `str(DefectName(name, charge, annotation))`: `name_charge` with the
annotation appended when it is truthy (present and non-empty). -/
def defectNameStr (name : String) (charge : Int) (ann : Option String) :
    String :=
  match ann with
  | some a =>
      if a = "" then name ++ "_" ++ toString charge
      else name ++ "_" ++ toString charge ++ "_" ++ a
  | none => name ++ "_" ++ toString charge

/-- The if/elif filtering chain in `plot_energy` for one record, returning
the log message it emits when the record is omitted (`logger.info` in all
three branches) and `none` when the record is kept.  The name matcher
`DefectName.is_name_matched` is abstracted as the predicate `matched`. -/
def recordLog (matched : String → Int → Option String → Bool)
    (exclShallow exclUnconv : Bool) (name : String) (charge : Int)
    (ann : Option String) (e : DefectEnergy) : Option (LogLevel × String) :=
  if matched name charge ann = false then
    some (LogLevel.info,
      defectNameStr name charge ann ++ " filtered out, so omitted.")
  else if exclShallow && e.is_shallow then
    some (LogLevel.info,
      defectNameStr name charge ann ++ " is shallow, so omitted.")
  else if exclUnconv && !e.convergence then
    some (LogLevel.info,
      defectNameStr name charge ann ++ " unconverged, so omitted.")
  else none

/-- The net effect of the filtering loop on one annotation dict:
`energy_by_annotation.pop(annotation)` removes exactly the records the
chain omits, so the dict that remains holds the records the chain keeps. -/
def filterAnnRecords (matched : String → Int → Option String → Bool)
    (exclShallow exclUnconv : Bool) (name : String) (charge : Int)
    (am : AnnotationMap) : AnnotationMap :=
  am.filter
    (fun av =>
      (recordLog matched exclShallow exclUnconv name charge av.1 av.2).isNone)

/-- The state of `self.defect_energies` after `plot_energy` returns: the
loop iterates over shallow copies but pops from the shared inner dicts, so
every omitted record is removed from the object in place, while name and
charge keys remain (possibly holding empty dicts). -/
def plotEnergyDefectEnergies (matched : String → Int → Option String → Bool)
    (exclShallow exclUnconv : Bool) (de : EnergiesMap) : EnergiesMap :=
  de.map
    (fun nv => (nv.1, nv.2.map
      (fun cv =>
        (cv.1, filterAnnRecords matched exclShallow exclUnconv
          nv.1 cv.1 cv.2))))

/-- All log messages emitted by the filtering loop of `plot_energy`, in
iteration order. -/
def plotEnergyLog (matched : String → Int → Option String → Bool)
    (exclShallow exclUnconv : Bool) (de : EnergiesMap) :
    List (LogLevel × String) :=
  de.flatMap
    (fun nv => nv.2.flatMap
      (fun cv => cv.2.filterMap
        (fun av =>
          recordLog matched exclShallow exclUnconv nv.1 cv.1 av.1 av.2)))

/-- `lowest_energies[name]` after the filtering loop: for each charge
whose surviving annotation dict is non-empty, the minimum energy over its
annotations. -/
def lowestEnergiesOf (cm : ChargeMap) : List (Int × ℚ) :=
  cm.filterMap (fun cv => (lowestItem cv.2).map (fun p => (cv.1, p.2.energy)))

/-- The observable outcome of one `plot_energy` call: per-name transition
levels (computed from the filtered lowest energies) together with the
post-call state of `self.defect_energies`. -/
def plotEnergySolve (matched : String → Int → Option String → Bool)
    (exclShallow exclUnconv : Bool) (de : EnergiesMap) :
    List (String × TransitionLevel) × EnergiesMap :=
  let post := plotEnergyDefectEnergies matched exclShallow exclUnconv de
  (post.map (fun nv => (nv.1, transitionLevel (lowestEnergiesOf nv.2))), post)

/-- The names actually drawn in the diagram: the plotting loop skips
(`continue`) every name whose `lowest_energies[name]` is empty. -/
def plottedNames (matched : String → Int → Option String → Bool)
    (exclShallow exclUnconv : Bool) (de : EnergiesMap) : List String :=
  (plotEnergyDefectEnergies matched exclShallow exclUnconv de).filterMap
    (fun nv => if lowestEnergiesOf nv.2 = [] then none else some nv.1)

/-- The trivial name matcher (no filtering words given). -/
def mAll : String → Int → Option String → Bool := fun _ _ _ => true

/-- A dataset with a single shallow record. -/
def shallowDs : EnergiesMap := [("Va_O1", [(0, [(none, ⟨1, true, true⟩)])])]

/-- C2: `plot_energy` does NOT leave `defect_energies` unchanged — on a
dataset whose only record is shallow, the filtering loop pops the record
from the shared inner dict, so the post-call mapping differs from the
pre-call mapping. -/
theorem c2_filtering_mutates_dataset :
    plotEnergyDefectEnergies mAll true true shallowDs ≠ shallowDs := by
  simp [plotEnergyDefectEnergies, filterAnnRecords, shallowDs, recordLog,
    mAll]

/-- Filtering twice with the same predicate filters once. -/
lemma filter_idem {α : Type} (p : α → Bool) (l : List α) :
    (l.filter p).filter p = l.filter p := by
  induction l with
  | nil => rfl
  | cons a t ih =>
    by_cases h : p a
    · simp [List.filter_cons, h, ih]
    · simp [List.filter_cons, h, ih]

/-- The in-place filtering pass of `plot_energy` is idempotent: running it
on an already-filtered `defect_energies` changes nothing. -/
lemma plotEnergyDefectEnergies_idem
    (matched : String → Int → Option String → Bool)
    (exclShallow exclUnconv : Bool) (de : EnergiesMap) :
    plotEnergyDefectEnergies matched exclShallow exclUnconv
        (plotEnergyDefectEnergies matched exclShallow exclUnconv de) =
      plotEnergyDefectEnergies matched exclShallow exclUnconv de := by
  induction de with
  | nil => rfl
  | cons nv de ih =>
    simp only [plotEnergyDefectEnergies, List.map_cons, List.cons.injEq]
      at ih ⊢
    refine ⟨?_, ih⟩
    refine Prod.ext rfl ?_
    simp only
    induction nv.2 with
    | nil => rfl
    | cons cv cm ihc =>
      simp only [List.map_cons, List.cons.injEq] at ihc ⊢
      exact ⟨Prod.ext rfl (filter_idem _ _), ihc⟩

/-- C8: solving is deterministic and a pure function of the filtered
dataset: a second `plot_energy` run, started from the dataset state left
behind by the first run (the filtered dataset), produces exactly the same
transition-level lists and the same dataset state. -/
theorem c8_solve_deterministic
    (matched : String → Int → Option String → Bool)
    (exclShallow exclUnconv : Bool) (de : EnergiesMap) :
    plotEnergySolve matched exclShallow exclUnconv
        (plotEnergySolve matched exclShallow exclUnconv de).2 =
      plotEnergySolve matched exclShallow exclUnconv de := by
  simp only [plotEnergySolve,
    plotEnergyDefectEnergies_idem matched exclShallow exclUnconv de]

/-- Every message the filtering chain emits is at info level. -/
lemma recordLog_level {matched : String → Int → Option String → Bool}
    {exclShallow exclUnconv : Bool} {name : String} {charge : Int}
    {ann : Option String} {e : DefectEnergy} {lv : LogLevel} {msg : String}
    (h : recordLog matched exclShallow exclUnconv name charge ann e =
      some (lv, msg)) : lv = LogLevel.info := by
  unfold recordLog at h
  split_ifs at h <;>
    first
      | exact (congrArg Prod.fst (Option.some.inj h)).symm
      | exact absurd h (by simp)

/-- Every message in the `plot_energy` filtering log is at info level; no
warning is ever emitted by the filtering/dropping pass. -/
lemma plotEnergyLog_info (matched : String → Int → Option String → Bool)
    (exclShallow exclUnconv : Bool) (de : EnergiesMap) :
    ∀ e ∈ plotEnergyLog matched exclShallow exclUnconv de,
      e.1 = LogLevel.info := by
  intro e he
  simp only [plotEnergyLog, List.mem_flatMap, List.mem_filterMap] at he
  obtain ⟨nv, _, cv, _, av, _, hrec⟩ := he
  exact recordLog_level (by rw [hrec])

/-- In a list with nodup keys, two members with equal keys are equal. -/
lemma eq_of_mem_of_nodup_keys {α β : Type} {l : List (α × β)}
    (h : (l.map Prod.fst).Nodup) {p q : α × β} (hp : p ∈ l) (hq : q ∈ l)
    (hfst : p.1 = q.1) : p = q := by
  induction l with
  | nil => simp at hp
  | cons a t ih =>
    simp only [List.map_cons, List.nodup_cons] at h
    rcases List.mem_cons.mp hp with hp1 | hp1 <;>
      rcases List.mem_cons.mp hq with hq1 | hq1
    · rw [hp1, hq1]
    · exfalso
      exact h.1 (List.mem_map.mpr ⟨q, hq1, by rw [← hfst, hp1]⟩)
    · exfalso
      exact h.1 (List.mem_map.mpr ⟨p, hp1, by rw [hfst, hq1]⟩)
    · exact ih h.2 hp1 hq1

/-- The filtering pass keeps the name keys (and their order) unchanged. -/
lemma plotEnergyDefectEnergies_keys
    (matched : String → Int → Option String → Bool)
    (exclShallow exclUnconv : Bool) (de : EnergiesMap) :
    (plotEnergyDefectEnergies matched exclShallow exclUnconv de).map
        Prod.fst = de.map Prod.fst := by
  induction de with
  | nil => rfl
  | cons nv de ih =>
    simp only [plotEnergyDefectEnergies, List.map_cons] at ih ⊢
    rw [ih]

/-- C9 amended: a configuration for which zero charges survive filtering
is dropped from the diagram (it is skipped by the plotting loop) and the
computation continues for every remaining configuration (each name with a
surviving charge is plotted); however no warning is logged for the
dropped configuration — the filtering pass only emits per-record
info-level messages. -/
theorem c9_empty_config_dropped_amended
    (matched : String → Int → Option String → Bool)
    (exclShallow exclUnconv : Bool) (de : EnergiesMap) (name : String)
    (cm : ChargeMap) (hnd : (de.map Prod.fst).Nodup)
    (hmem : (name, cm) ∈
      plotEnergyDefectEnergies matched exclShallow exclUnconv de)
    (hempty : lowestEnergiesOf cm = []) :
    name ∉ plottedNames matched exclShallow exclUnconv de ∧
    (∀ p ∈ plotEnergyDefectEnergies matched exclShallow exclUnconv de,
      lowestEnergiesOf p.2 ≠ [] →
        p.1 ∈ plottedNames matched exclShallow exclUnconv de) ∧
    (∀ e ∈ plotEnergyLog matched exclShallow exclUnconv de,
      e.1 = LogLevel.info) := by
  have hndpost : ((plotEnergyDefectEnergies matched exclShallow exclUnconv
      de).map Prod.fst).Nodup := by
    rw [plotEnergyDefectEnergies_keys]
    exact hnd
  refine ⟨?_, ?_, plotEnergyLog_info matched exclShallow exclUnconv de⟩
  · intro hin
    simp only [plottedNames, List.mem_filterMap] at hin
    obtain ⟨p, hp, hpeq⟩ := hin
    by_cases hle : lowestEnergiesOf p.2 = []
    · rw [if_pos hle] at hpeq
      exact absurd hpeq (by simp)
    · rw [if_neg hle] at hpeq
      have hfst : p.1 = (name, cm).1 := Option.some.inj hpeq
      have := eq_of_mem_of_nodup_keys hndpost hp hmem hfst
      rw [this] at hle
      exact hle hempty
  · intro p hp hle
    simp only [plottedNames, List.mem_filterMap]
    exact ⟨p, hp, by rw [if_neg hle]⟩

/-- A well-converged, non-shallow record. -/
def goodRec : DefectEnergy := ⟨1, true, false⟩

/-- A shallow record. -/
def shallowRec : DefectEnergy := ⟨1, true, true⟩

/-- Two-configuration dataset: all of "A"'s records are shallow, "B" has a
good record. -/
def dsAB : EnergiesMap :=
  [("A", [(0, [(none, shallowRec)])]), ("B", [(0, [(none, goodRec)])])]

/-- C9 counterexample: on `dsAB` the configuration "A" loses all charges
to filtering and is dropped while "B" is still plotted, but every message
logged by the pass is info-level — no warning is logged for the dropped
configuration, contradicting the claim. -/
theorem c9_counterexample :
    plottedNames mAll true true dsAB = ["B"] ∧
    lowestEnergiesOf [(0, ([] : AnnotationMap))] = [] ∧
    (("A", [(0, ([] : AnnotationMap))]) ∈
      plotEnergyDefectEnergies mAll true true dsAB) ∧
    (∀ e ∈ plotEnergyLog mAll true true dsAB, e.1 = LogLevel.info) := by
  refine ⟨?_, rfl, ?_, plotEnergyLog_info mAll true true dsAB⟩
  · simp [plottedNames, plotEnergyDefectEnergies, filterAnnRecords, dsAB,
      recordLog, mAll, shallowRec, goodRec, lowestEnergiesOf, lowestItem,
      pyMinBy, foldlMin]
  · simp [plotEnergyDefectEnergies, filterAnnRecords, dsAB, recordLog,
      mAll, shallowRec]

/-- Witness for the amended C9 at `dsAB` and its dropped configuration
"A". -/
theorem c9_witness :
    ((dsAB.map Prod.fst).Nodup ∧
      ("A", [(0, ([] : AnnotationMap))]) ∈
        plotEnergyDefectEnergies mAll true true dsAB ∧
      lowestEnergiesOf [(0, ([] : AnnotationMap))] = []) ∧
    ("A" ∉ plottedNames mAll true true dsAB ∧
    (∀ p ∈ plotEnergyDefectEnergies mAll true true dsAB,
      lowestEnergiesOf p.2 ≠ [] → p.1 ∈ plottedNames mAll true true dsAB) ∧
    (∀ e ∈ plotEnergyLog mAll true true dsAB, e.1 = LogLevel.info)) :=
  ⟨⟨by simp [dsAB], by simp [plotEnergyDefectEnergies, filterAnnRecords,
      dsAB, recordLog, mAll, shallowRec], rfl⟩,
   c9_empty_config_dropped_amended mAll true true dsAB "A"
     [(0, ([] : AnnotationMap))] (by simp [dsAB])
     (by simp [plotEnergyDefectEnergies, filterAnnRecords, dsAB,
       recordLog, mAll, shallowRec]) rfl⟩

/-- A `name → charge → annotation → value` triple-nested dict. -/
abbrev NestedDict (β : Type) :=
  List (String × List (Int × List (Option String × β)))

/-- `DefectEnergy.as_dict()` (MSONable): the field dict of the record. -/
def DefectEnergy.asDict (e : DefectEnergy) : ℚ × Bool × Bool :=
  (e.energy, e.convergence, e.is_shallow)

/-- `DefectEnergy.from_dict(d)` (MSONable): rebuild the record from its
field dict. -/
def DefectEnergy.fromDict (d : ℚ × Bool × Bool) : DefectEnergy :=
  ⟨d.1, d.2.1, d.2.2⟩

/-- `None if annotation == "null" else annotation`: the annotation-key
re-cast used both by `as_dict` and by `convert_str_in_dict`.  An
in-memory `None` key is left unchanged. -/
def recastAnn (a : Option String) : Option String :=
  if a = some "null" then none else a

/-- Rebuild a triple-nested dict, transforming annotation keys with `f`
and values with `g`.  Charge keys pass through `int(charge)`, which is
the identity on the typed integer keys of the embedding. -/
def mapNested {β γ : Type} (f : Option String → Option String) (g : β → γ)
    (d : NestedDict β) : NestedDict γ :=
  d.map
    (fun nv => (nv.1, nv.2.map
      (fun cv => (cv.1, cv.2.map (fun av => (f av.1, g av.2))))))

/-- `convert_str_in_dict(d, value_type)` on a present dict: charge keys
through `int`, the `"null"` annotation key to `None`, values through
`value_type`.  (The source's `d is None` branch never arises in the
round-trip, where both dicts are built by `as_dict`.) -/
def convert_str_in_dict {β γ : Type} (g : β → γ) (d : NestedDict β) :
    NestedDict γ :=
  mapNested recastAnn g d

/-- The in-memory `DefectEnergies` aggregate. -/
structure DefectEnergiesData where
  defect_energies : NestedDict DefectEnergy
  multiplicity : NestedDict ℚ
  magnetization : NestedDict ℚ
  vbm : ℚ
  cbm : ℚ
  supercell_vbm : ℚ
  supercell_cbm : ℚ
  title : Option String

/-- The dict produced by `DefectEnergies.as_dict` (the `@module`/`@class`
tags carry no data and are omitted). -/
structure DefectEnergiesDict where
  defect_energies : NestedDict (ℚ × Bool × Bool)
  multiplicity : NestedDict ℚ
  magnetization : NestedDict ℚ
  vbm : ℚ
  cbm : ℚ
  supercell_vbm : ℚ
  supercell_cbm : ℚ
  title : Option String

/-- `DefectEnergies.as_dict`: defect energies with the `'null'` annotation
key re-cast and records serialized; multiplicity and magnetization pass
through raw. -/
def as_dict (x : DefectEnergiesData) : DefectEnergiesDict :=
  { defect_energies :=
      mapNested recastAnn DefectEnergy.asDict x.defect_energies
    multiplicity := x.multiplicity
    magnetization := x.magnetization
    vbm := x.vbm
    cbm := x.cbm
    supercell_vbm := x.supercell_vbm
    supercell_cbm := x.supercell_cbm
    title := x.title }

/-- `DefectEnergies.from_dict`: every nested dict through
`convert_str_in_dict`, with `DefectEnergy.from_dict` resp. `float` (the
identity on the embedding's exact values) as the value constructor. -/
def from_dict (d : DefectEnergiesDict) : DefectEnergiesData :=
  { defect_energies :=
      convert_str_in_dict DefectEnergy.fromDict d.defect_energies
    multiplicity := convert_str_in_dict id d.multiplicity
    magnetization := convert_str_in_dict id d.magnetization
    vbm := d.vbm
    cbm := d.cbm
    supercell_vbm := d.supercell_vbm
    supercell_cbm := d.supercell_cbm
    title := d.title }

/-- No annotation key of the nested dict is the literal string "null"
(the in-memory representation of a missing annotation is `None`). -/
def noNullKeys {β : Type} (d : NestedDict β) : Prop :=
  ∀ nv ∈ d, ∀ cv ∈ nv.2, ∀ av ∈ cv.2, av.1 ≠ some "null"

/-- Mapping each element to itself maps the list to itself. -/
lemma map_eq_self {α : Type} {f : α → α} {l : List α}
    (h : ∀ a ∈ l, f a = a) : l.map f = l := by
  induction l with
  | nil => rfl
  | cons a t ih =>
    rw [List.map_cons, h a (List.mem_cons_self _ _),
      ih (fun b hb => h b (List.mem_cons_of_mem _ hb))]

/-- `mapNested` with key- and value-transformations that fix every
element fixes the dict. -/
lemma mapNested_eq_self {β : Type} {f : Option String → Option String}
    {g : β → β} (hf : ∀ a, a ≠ some "null" → f a = a) (hg : ∀ v, g v = v)
    (d : NestedDict β) (h : noNullKeys d) : mapNested f g d = d := by
  apply map_eq_self
  intro nv hnv
  refine Prod.ext rfl ?_
  apply map_eq_self
  intro cv hcv
  refine Prod.ext rfl ?_
  apply map_eq_self
  intro av hav
  exact Prod.ext (hf _ (h nv hnv cv hcv av hav)) (hg _)

/-- Two stacked `mapNested` passes compose. -/
lemma mapNested_mapNested {β γ δ : Type}
    (f1 f2 : Option String → Option String) (g1 : β → γ) (g2 : γ → δ)
    (d : NestedDict β) :
    mapNested f2 g2 (mapNested f1 g1 d) =
      mapNested (fun a => f2 (f1 a)) (fun v => g2 (g1 v)) d := by
  simp [mapNested, List.map_map, Function.comp]

/-- C7: `from_dict` undoes `as_dict`: for every `DefectEnergies` object
whose annotation keys are in native form (no literal "null" string —
charge keys and float values are native by typing), the round trip
rebuilds an equal object; the `int`/`float`/`None` re-casts of
`convert_str_in_dict` are the identity on such data. -/
theorem c7_dict_roundtrip (x : DefectEnergiesData)
    (h1 : noNullKeys x.defect_energies) (h2 : noNullKeys x.multiplicity)
    (h3 : noNullKeys x.magnetization) :
    from_dict (as_dict x) = x := by
  have hre : ∀ a : Option String, a ≠ some "null" → recastAnn a = a := by
    intro a ha
    unfold recastAnn
    rw [if_neg ha]
  cases x with
  | mk de mult mag vbm cbm svbm scbm title =>
    simp only [from_dict, as_dict, convert_str_in_dict]
    rw [mapNested_mapNested,
      @mapNested_eq_self DefectEnergy (fun a => recastAnn (recastAnn a))
        (fun v => DefectEnergy.fromDict v.asDict)
        (fun a ha => by
          show recastAnn (recastAnn a) = a
          rw [hre a ha, hre a ha]) (fun v => rfl) de h1,
      @mapNested_eq_self ℚ recastAnn id hre (fun v => rfl) mult h2,
      @mapNested_eq_self ℚ recastAnn id hre (fun v => rfl) mag h3]

/-- A concrete `DefectEnergies` object for the round-trip witness. -/
def xEx : DefectEnergiesData :=
  { defect_energies := [("Va_O1", [(0, [(none, ⟨1, true, false⟩)]),
                                   (1, [(some "a", ⟨2, true, false⟩)])])]
    multiplicity := [("Va_O1", [(0, [(none, 2)]), (1, [(some "a", 4)])])]
    magnetization := [("Va_O1", [(0, [(none, 0)]), (1, [(some "a", 1)])])]
    vbm := 1
    cbm := 3
    supercell_vbm := 1
    supercell_cbm := 3
    title := some "MgO condition A" }

/-- Witness for C7 at `xEx`. -/
theorem c7_witness :
    noNullKeys xEx.defect_energies ∧ noNullKeys xEx.multiplicity ∧
    noNullKeys xEx.magnetization ∧ from_dict (as_dict xEx) = xEx :=
  ⟨by unfold noNullKeys xEx; decide, by unfold noNullKeys xEx; decide,
   by unfold noNullKeys xEx; decide,
   c7_dict_roundtrip xEx (by unfold noNullKeys xEx; decide)
     (by unfold noNullKeys xEx; decide) (by unfold noNullKeys xEx; decide)⟩

end Pydefect
